import Mathlib

/-!
Verification of the s3ncdu tree / scanner / delete-batching / browse-UI core
(`src/s3ncdu.py`), shallowly embedded in Lean.

Strings are modelled with Lean `String` (a wrapper around a list of
characters); Python's `key.split("/")`, `str.lower()` and lexicographic
string comparison are embedded as character-list functions so that they
evaluate by kernel reduction.  Python `dict[str, Node]` children maps are
embedded as insertion-ordered lists of nodes whose names play the role of
the dict keys (the source always stores a node under its own name:
`node.ch[p] = Node(name=p, ...)`), with dict update keeping the position
of an existing key and dict insert appending at the end, as in CPython.
-/

/-! ### Character-level string helpers -/

/-- Python `key.split("/")`: split a character list on `'/'`, keeping empty
segments, accumulating the current (reversed) segment. -/
def splitRaw : List Char → List Char → List String
  | [], acc => [String.mk acc.reverse]
  | c :: rest, acc =>
      if c = '/' then String.mk acc.reverse :: splitRaw rest []
      else splitRaw rest (c :: acc)

/-- `[p for p in key.split("/") if p]` from `Tree.insert`. -/
def splitKey (key : String) : List String :=
  (splitRaw key.data []).filter (fun p => !(p == ""))

/-- Lexicographic comparison of character lists (Python `<=` on `str`). -/
def charListLe : List Char → List Char → Bool
  | [], _ => true
  | _ :: _, [] => false
  | a :: as, b :: bs => if a < b then true else if b < a then false else charListLe as bs

/-- Python `<=` on strings. -/
def strLe (a b : String) : Bool := charListLe a.data b.data

/-- Python `str.lower()` (character-wise lowercasing). -/
def lowerStr (s : String) : String := String.mk (s.data.map Char.toLower)

/-! ### The Node data model (`@dataclass class Node`)

The `par` back-reference of the source is not stored: it is a non-owning
upward pointer, and the operations that follow it (`insert`'s bubble-up
and `recalc`) are embedded as recursion along the access path instead.
Nodes in the tree are addressed by their path (list of segment names)
from the root. -/

mutual
inductive Node : Type where
  | mk (name : String) (dir : Bool) (size : Int) (key : String) (ch : NodeList) : Node
inductive NodeList : Type where
  | nil : NodeList
  | cons (hd : Node) (tl : NodeList) : NodeList
end

def Node.name : Node → String | .mk n _ _ _ _ => n

def Node.dir : Node → Bool | .mk _ d _ _ _ => d

def Node.size : Node → Int | .mk _ _ s _ _ => s

def Node.key : Node → String | .mk _ _ _ k _ => k

def Node.ch : Node → NodeList | .mk _ _ _ _ c => c

/-- `list(self.ch.values())` — the children in insertion order. -/
def NodeList.toList : NodeList → List Node
  | .nil => []
  | .cons c rest => c :: rest.toList

def NodeList.ofList : List Node → NodeList
  | [] => .nil
  | c :: rest => .cons c (ofList rest)

/-- `p in node.ch` / `node.ch[p]` — first child stored under name `p`. -/
def NodeList.lookup : NodeList → String → Option Node
  | .nil, _ => none
  | .cons c rest, p => if c.name == p then some c else rest.lookup p

/-- Dict update `node.ch[p] = c'` for a `p` already present: the entry keeps
its position. -/
def NodeList.replace : NodeList → String → Node → NodeList
  | .nil, _, _ => .nil
  | .cons c rest, p, c' =>
      if c.name == p then .cons c' rest else .cons c (rest.replace p c')

/-- Dict insert of a fresh key: appended at the end. -/
def NodeList.push : NodeList → Node → NodeList
  | .nil, c' => .cons c' .nil
  | .cons c rest, c' => .cons c (rest.push c')

/-- `del node.par.ch[node.name]`. -/
def NodeList.eraseName : NodeList → String → NodeList
  | .nil, _ => .nil
  | .cons c rest, p => if c.name == p then rest else .cons c (rest.eraseName p)

/-- `sum(c.size for c in node.ch.values())`. -/
def NodeList.sumSizes : NodeList → Int
  | .nil => 0
  | .cons c rest => c.size + rest.sumSizes

def NodeList.namesOf (l : NodeList) : List String := l.toList.map Node.name

/-! ### Recursive tree functions -/

mutual
/-- `Node.count`: `1 if not self.dir else sum(c.count() for c in self.ch.values())`. -/
def Node.count : Node → Nat
  | .mk _ d _ _ ch => if d then ch.countSum else 1
def NodeList.countSum : NodeList → Nat
  | .nil => 0
  | .cons c rest => c.count + rest.countSum
end

mutual
/-- `Node.all_keys`: leaves contribute `[self.key] if self.key else []`,
directories concatenate over children. -/
def Node.all_keys : Node → List String
  | .mk _ d _ k ch => if d then ch.allKeysCat else if k == "" then [] else [k]
def NodeList.allKeysCat : NodeList → List String
  | .nil => []
  | .cons c rest => c.all_keys ++ rest.allKeysCat
end

mutual
/-- The aggregation invariant: every directory node's `size` equals the sum
of its immediate children's sizes, recursively. -/
def Node.sizeOk : Node → Bool
  | .mk _ d s _ ch => (!d || (s == ch.sumSizes)) && ch.sizeOkAll
def NodeList.sizeOkAll : NodeList → Bool
  | .nil => true
  | .cons c rest => c.sizeOk && rest.sizeOkAll
end

mutual
/-- Every non-directory node carries a non-empty `key`. -/
def Node.keysOk : Node → Bool
  | .mk _ d _ k ch => (d || !(k == "")) && ch.keysOkAll
def NodeList.keysOkAll : NodeList → Bool
  | .nil => true
  | .cons c rest => c.keysOk && rest.keysOkAll
end

mutual
/-- Canonical form: recursively order every children list by node name.
Two trees are indistinguishable up to child ordering iff their canonical
forms are equal. -/
def Node.canon : Node → Node
  | .mk nm d s k ch => .mk nm d s k (NodeList.ofList ((ch.canonList).mergeSort (fun a b => strLe a.name b.name)))
def NodeList.canonList : NodeList → List Node
  | .nil => []
  | .cons c rest => c.canon :: rest.canonList
end

/-! ### Tree operations (`class Tree`) -/

/-- `Tree.__init__`: a single root directory named `"/"`. -/
def Tree.empty : Node := Node.mk "/" true 0 "" .nil

/-- The walk of `Tree.insert` over the segment list, fused with the final
bubble-up: after the walk, every strict ancestor of the terminal node
(i.e. every node this recursion returns) gets `size = sum(children)`,
unconditionally, exactly as the `while p:` loop does. For the empty
segment list the walk never leaves the root and the bubble-up loop is
vacuous (`node.par` is `None`). -/
def insertGo (key : String) (size : Int) : Node → List String → Node
  | n, [] => n
  | .mk nm d _ k ch, [p] =>
      let ch' := match ch.lookup p with
        | some c => ch.replace p (Node.mk c.name c.dir size key c.ch)
        | none => ch.push (Node.mk p false size key .nil)
      Node.mk nm d ch'.sumSizes k ch'
  | .mk nm d _ k ch, p :: q :: rest =>
      let c0 := match ch.lookup p with
        | some c => c
        | none => Node.mk p true 0 "" .nil
      let c' := insertGo key size c0 (q :: rest)
      let ch' := if (ch.lookup p).isSome then ch.replace p c' else ch.push c'
      Node.mk nm d ch'.sumSizes k ch'

/-- `Tree.insert(key, size)`. -/
def Tree.insert (t : Node) (key : String) (size : Int) : Node :=
  insertGo key size t (splitKey key)

/-- `Tree.remove(node)` for the node at `path`, returning `none` when the
source method is a no-op (no parent, or the name is absent from the
parent's children map).  `recalc` resums `size` only on directory
ancestors, but always recurses to the root. -/
def removeGo : Node → List String → Option Node
  | _, [] => none
  | .mk nm d s k ch, [p] =>
      match ch.lookup p with
      | none => none
      | some _ =>
          let ch' := ch.eraseName p
          some (Node.mk nm d (if d then ch'.sumSizes else s) k ch')
  | .mk nm d s k ch, p :: q :: rest =>
      match ch.lookup p with
      | none => none
      | some c =>
          match removeGo c (q :: rest) with
          | none => none
          | some c' =>
              let ch' := ch.replace p c'
              some (Node.mk nm d (if d then ch'.sumSizes else s) k ch')

/-- `Tree.remove`. -/
def Tree.remove (t : Node) (path : List String) : Node :=
  (removeGo t path).getD t

/-- Walk a path from a node to the node it addresses. -/
def findPath : Node → List String → Option Node
  | n, [] => some n
  | n, p :: rest =>
      match n.ch.lookup p with
      | none => none
      | some c => findPath c rest

/-- `Node.sorted(by)`: Python's stable `list.sort` with key
`x.size if by == "size" else x.name.lower()` and `reverse=(by == "size")`,
embedded as a stable merge sort with the corresponding total preorder. -/
def Node.sorted (n : Node) (b : String) : List Node :=
  if b == "size" then n.ch.toList.mergeSort (fun x y => decide (y.size ≤ x.size))
  else n.ch.toList.mergeSort (fun x y => strLe (lowerStr x.name) (lowerStr y.name))

/-! ### Scanner prefix discovery (`Scanner._discover`, `Scanner.scan`,
`Scanner._split_prefix`)

The S3 listing collaborator is abstracted by `listCP : String → List String`
mapping a prefix to the `CommonPrefixes` its delimited root page returns. -/

/-- `Scanner._discover(s3, prefix, depth)`. -/
def Scanner.discover (listCP : String → List String) : Nat → String → List String
  | 0, pfx => [pfx]
  | d + 1, pfx =>
      let common := listCP pfx
      if common = [] then [pfx]
      else (common.map (fun cp => Scanner.discover listCP d cp)).flatten

/-- `string.digits + string.ascii_lowercase`. -/
def digitsLower : List Char := "0123456789abcdefghijklmnopqrstuvwxyz".data

/-- `Scanner._split_prefix`: one partition per character in `0-9a-z`. -/
def Scanner.splitPrefix (pfx : String) : List String :=
  digitsLower.map (fun c => pfx.push c)

/-- The partition-selection part of `Scanner.scan`: discover at depth 2 from
the empty prefix; when at most one prefix results, fall back to the
36-way character split of `prefixes[0] if prefixes else ""`. -/
def Scanner.scanPartitions (listCP : String → List String) : List String :=
  let prefixes := Scanner.discover listCP 2 ""
  if prefixes.length ≤ 1 then Scanner.splitPrefix (prefixes.headD "") else prefixes

/-! ### Bulk delete batching (`UI.action_confirm_yes`)

`for i in range(0, len(keys), 1000): … keys[i:i+1000]` consumes the key
list 1000 at a time; the fuel argument (initially `keys.length`) only
bounds the recursion and is irrelevant once it is at least the length. -/

def deleteBatchesGo : Nat → List String → List (List String)
  | 0, _ => []
  | _, [] => []
  | f + 1, keys => keys.take 1000 :: deleteBatchesGo f (keys.drop 1000)

/-- The batches `keys[0:1000], keys[1000:2000], …` issued by
`action_confirm_yes`, in order. -/
def deleteBatches (keys : List String) : List (List String) :=
  deleteBatchesGo keys.length keys

/-- Issue the delete calls sequentially against an abstract store
(`ok b` tells whether the `delete_objects` call for batch `b` succeeds);
the first failing call raises, so later batches are not attempted.
Returns whether all batches succeeded. -/
def runBatches (ok : List String → Bool) : List (List String) → Bool
  | [] => true
  | b :: rest => if ok b then runBatches ok rest else false

/-! ### The browse/delete UI state machine (`class UI`)

`cwd` and `_confirm_node` hold references to live tree nodes in the
source; here both are addressed by path.  The `DataTable` collaborator is
reduced to its cursor row; `tbl.clear()` resets the cursor to row 0.
An uncaught exception from a `delete_objects` call propagates out of the
action, so nothing after the failing call in `action_confirm_yes` runs. -/

structure UIState where
  tree : Node
  cwd : List String
  sortBy : String
  cursor : Nat
  confirm : Option (List String)
  quit : Bool

/-- `self._items`: the current directory's children under the current sort. -/
def uiItems (st : UIState) : List Node :=
  match findPath st.tree st.cwd with
  | some n => n.sorted st.sortBy
  | none => []

/-- `UI._sel`. -/
def uiSel (st : UIState) : Option Node := (uiItems st)[st.cursor]?

/-- `UI._refresh`: rebuild the table (cursor back to row 0) and drop any
pending confirmation. -/
def uiRefresh (st : UIState) : UIState := { st with confirm := none, cursor := 0 }

/-- `UI.action_delete`. -/
def uiActionDelete (st : UIState) : UIState :=
  if st.confirm.isSome then { st with confirm := none }
  else
    match uiSel st with
    | none => st
    | some node => { st with confirm := some (st.cwd ++ [node.name]) }

/-- `UI.action_sort_size`. -/
def uiActionSortSize (st : UIState) : UIState :=
  if st.confirm.isSome then { st with confirm := none }
  else uiRefresh { st with sortBy := "size" }

/-- `UI.action_sort_name`. -/
def uiActionSortName (st : UIState) : UIState :=
  if st.confirm.isSome then { st with confirm := none }
  else uiRefresh { st with sortBy := "name" }

/-- `UI.action_go_up`. -/
def uiActionGoUp (st : UIState) : UIState :=
  if st.confirm.isSome then { st with confirm := none }
  else if st.cwd = [] then st
  else
    let nm := st.cwd.getLastD ""
    let st' := uiRefresh { st with cwd := st.cwd.dropLast }
    match (uiItems st').findIdx? (fun item => item.name == nm) with
    | some i => { st' with cursor := i }
    | none => st'

/-- `UI.on_data_table_row_selected`. -/
def uiRowSelected (st : UIState) : UIState :=
  if st.confirm.isSome then { st with confirm := none }
  else
    match uiSel st with
    | some node =>
        if node.dir && !node.ch.toList.isEmpty then
          uiRefresh { st with cwd := st.cwd ++ [node.name] }
        else st
    | none => st

/-- `UI.action_confirm_yes`: batched deletes, then — only when every batch
call succeeded — a single `Tree.remove` and a refresh with the cursor
clamped into range. -/
def uiActionConfirmYes (ok : List String → Bool) (st : UIState) : UIState :=
  match st.confirm with
  | none => st
  | some path =>
      match findPath st.tree path with
      | none => st
      | some node =>
          let keys := node.all_keys
          if runBatches ok (deleteBatches keys) then
            let st' := uiRefresh { st with tree := Tree.remove st.tree path }
            let items := uiItems st'
            if items.isEmpty then st'
            else { st' with cursor := min st.cursor (items.length - 1) }
          else st

/-- `UI.action_confirm_cancel`. -/
def uiActionConfirmCancel (st : UIState) : UIState :=
  if st.confirm.isSome then { st with confirm := none } else st

/-- The keys of `UI.BINDINGS`, plus `other` for any key with no binding
(Textual dispatches no action for it). `enter` stands for the row-selected
event of the table. -/
inductive Key : Type where
  | q | d | s | n | backspace | enter | y | escape | other
deriving DecidableEq

/-- One keypress dispatched through the bindings. -/
def handleKey (ok : List String → Bool) (st : UIState) : Key → UIState
  | .q => { st with quit := true }
  | .d => uiActionDelete st
  | .s => uiActionSortSize st
  | .n => uiActionSortName st
  | .backspace => uiActionGoUp st
  | .enter => uiRowSelected st
  | .y => uiActionConfirmYes ok st
  | .escape => uiActionConfirmCancel st
  | .other => st

/-! ### Operation sequences -/

inductive Op : Type where
  | ins (key : String) (size : Int)
  | rem (path : List String)

def applyOp (t : Node) : Op → Node
  | .ins k s => Tree.insert t k s
  | .rem p => Tree.remove t p

def applyOps (t : Node) (ops : List Op) : Node := ops.foldl applyOp t

/-- A tree built by a sequence of `insert`s from the empty tree. -/
def applyInserts (l : List (String × Int)) : Node :=
  l.foldl (fun t ks => Tree.insert t ks.1 ks.2) Tree.empty

/-- An insert is benign when its key either has no non-empty segments (the
insert is then a no-op) or does not address a node currently marked as a
directory (such an insert overwrites the directory's size in place and
breaks the aggregation invariant). -/
def insOk (t : Node) (key : String) : Bool :=
  decide (splitKey key = []) ||
    (match findPath t (splitKey key) with
     | some m => !m.dir
     | none => true)

/-- Every insert in the run is benign in the state it executes in. -/
def goodRun : Node → List Op → Bool
  | _, [] => true
  | t, op :: rest =>
      (match op with
       | .ins k _ => insOk t k
       | .rem _ => true) && goodRun (applyOp t op) rest

/-- `m` is a node of the tree rooted at `n` (reachable through children). -/
inductive Subnode : Node → Node → Prop where
  | refl (n : Node) : Subnode n n
  | step {n c m : Node} : c ∈ n.ch.toList → Subnode m c → Subnode m n

/-! ### Basic list lemmas -/

theorem NodeList.induct (P : NodeList → Prop) (h0 : P .nil)
    (h1 : ∀ c rest, P rest → P (.cons c rest)) : ∀ l, P l
  | .nil => h0
  | .cons c rest => h1 c rest (NodeList.induct P h0 h1 rest)

theorem toList_ofList (l : List Node) : (NodeList.ofList l).toList = l := by
  induction l with
  | nil => rfl
  | cons c rest ih => simp [NodeList.ofList, NodeList.toList, ih]

theorem insertGo_nil (key : String) (size : Int) (n : Node) :
    insertGo key size n [] = n := by
  cases n with
  | mk nm d s k ch => rfl

/-! ### C6: `count(node) = len(allLeafKeys(node))` on insert-built trees -/

theorem keysOkAll_mem {l : NodeList} (h : l.keysOkAll = true) :
    ∀ c ∈ l.toList, c.keysOk = true := by
  induction l using NodeList.induct with
  | h0 => intro c hc; simp [NodeList.toList] at hc
  | h1 c rest ih =>
      simp only [NodeList.keysOkAll, Bool.and_eq_true] at h
      intro x hx
      rcases List.mem_cons.mp (by simpa [NodeList.toList] using hx) with h1 | h2
      · exact h1 ▸ h.1
      · exact ih h.2 x h2

theorem keysOk_children {n c : Node} (h : n.keysOk = true) (hc : c ∈ n.ch.toList) :
    c.keysOk = true := by
  cases n with
  | mk nm d s k ch =>
      simp only [Node.keysOk, Bool.and_eq_true] at h
      exact keysOkAll_mem h.2 c hc

theorem keysOk_subnode {m n : Node} (hs : Subnode m n) :
    n.keysOk = true → m.keysOk = true := by
  induction hs with
  | refl => exact fun h => h
  | step hc _ ih => exact fun h => ih (keysOk_children h hc)

theorem count_eq_allKeys_len : ∀ n : Node, n.keysOk = true → n.count = n.all_keys.length :=
  @Node.rec
    (fun n => n.keysOk = true → n.count = n.all_keys.length)
    (fun l => l.keysOkAll = true → l.countSum = l.allKeysCat.length)
    (fun nm d s k ch ih h => by
      simp only [Node.keysOk, Bool.and_eq_true] at h
      cases d with
      | true => exact ih h.2
      | false =>
          have hk : (k == "") = false := by simpa using h.1
          show Node.count (Node.mk nm false s k ch) = (Node.all_keys (Node.mk nm false s k ch)).length
          simp [Node.count, Node.all_keys, hk])
    (fun _ => by simp [NodeList.countSum, NodeList.allKeysCat])
    (fun c rest ihc ihrest h => by
      simp only [NodeList.keysOkAll, Bool.and_eq_true] at h
      simp [NodeList.countSum, NodeList.allKeysCat, ihc h.1, ihrest h.2])

theorem lookup_keysOk {l : NodeList} {p : String} {c : Node}
    (hl : l.keysOkAll = true) (h : l.lookup p = some c) : c.keysOk = true := by
  induction l using NodeList.induct with
  | h0 => simp [NodeList.lookup] at h
  | h1 x rest ih =>
      simp only [NodeList.keysOkAll, Bool.and_eq_true] at hl
      by_cases hx : (x.name == p) = true
      · simp [NodeList.lookup, hx] at h
        exact h ▸ hl.1
      · simp [NodeList.lookup, hx] at h
        exact ih hl.2 h

theorem keysOkAll_replace {l : NodeList} {p : String} {c' : Node}
    (hl : l.keysOkAll = true) (hc : c'.keysOk = true) :
    (l.replace p c').keysOkAll = true := by
  induction l using NodeList.induct with
  | h0 => simpa [NodeList.replace] using hl
  | h1 x rest ih =>
      simp only [NodeList.keysOkAll, Bool.and_eq_true] at hl
      by_cases hx : (x.name == p) = true
      · simp [NodeList.replace, hx, NodeList.keysOkAll, hc, hl.2]
      · simp [NodeList.replace, hx, NodeList.keysOkAll, hl.1, ih hl.2]

theorem keysOkAll_push {l : NodeList} {c' : Node}
    (hl : l.keysOkAll = true) (hc : c'.keysOk = true) :
    (l.push c').keysOkAll = true := by
  induction l using NodeList.induct with
  | h0 => simp [NodeList.push, NodeList.keysOkAll, hc]
  | h1 x rest ih =>
      simp only [NodeList.keysOkAll, Bool.and_eq_true] at hl
      simp [NodeList.push, NodeList.keysOkAll, hl.1, ih hl.2]

theorem insertGo_keysOk (key : String) (size : Int) (hkey : ¬ key = "") :
    ∀ (parts : List String) (n : Node),
      n.keysOk = true → (insertGo key size n parts).keysOk = true := by
  intro parts
  induction parts with
  | nil => intro n h; simpa [insertGo_nil] using h
  | cons p rest ih =>
      intro n h
      cases n with
      | mk nm d s k ch =>
          simp only [Node.keysOk, Bool.and_eq_true] at h
          cases rest with
          | nil =>
              simp only [insertGo]
              cases hl : ch.lookup p with
              | some c =>
                  have hc := lookup_keysOk h.2 hl
                  cases c with
                  | mk cn cd cs ck cch =>
                      simp only [Node.keysOk, Bool.and_eq_true] at hc
                      have hc' : (Node.mk cn cd size key cch).keysOk = true := by
                        simp only [Node.keysOk, Bool.and_eq_true]
                        exact ⟨by simp [hkey], hc.2⟩
                      simp only [Node.keysOk, Bool.and_eq_true]
                      exact ⟨h.1, keysOkAll_replace h.2 hc'⟩
              | none =>
                  have hc' : (Node.mk p false size key .nil).keysOk = true := by
                    simp [Node.keysOk, NodeList.keysOkAll, hkey]
                  simp only [Node.keysOk, Bool.and_eq_true]
                  exact ⟨h.1, keysOkAll_push h.2 hc'⟩
          | cons q rest' =>
              simp only [insertGo]
              cases hl : ch.lookup p with
              | some c =>
                  have hc := lookup_keysOk h.2 hl
                  simp only [Node.keysOk, Bool.and_eq_true]
                  refine ⟨h.1, ?_⟩
                  simp only [hl, Option.isSome_some, if_pos]
                  exact keysOkAll_replace h.2 (ih _ hc)
              | none =>
                  have hfresh : (Node.mk p true 0 "" NodeList.nil).keysOk = true := by
                    simp [Node.keysOk, NodeList.keysOkAll]
                  simp only [Node.keysOk, Bool.and_eq_true]
                  refine ⟨h.1, ?_⟩
                  simp only [hl, Option.isSome_none, Bool.false_eq_true, if_neg]
                  exact keysOkAll_push h.2 (ih _ hfresh)

theorem tree_insert_keysOk {t : Node} (key : String) (size : Int)
    (h : t.keysOk = true) : (Tree.insert t key size).keysOk = true := by
  by_cases hk : key = ""
  · subst hk
    have he : splitKey "" = [] := rfl
    simpa [Tree.insert, he, insertGo_nil] using h
  · exact insertGo_keysOk key size hk (splitKey key) t h

theorem applyInserts_keysOk (l : List (String × Int)) : (applyInserts l).keysOk = true := by
  have H : ∀ (l : List (String × Int)) (t : Node), t.keysOk = true →
      (l.foldl (fun t ks => Tree.insert t ks.1 ks.2) t).keysOk = true := by
    intro l
    induction l with
    | nil => intro t h; exact h
    | cons ks rest ih => intro t h; exact ih _ (tree_insert_keysOk ks.1 ks.2 h)
  exact H l Tree.empty rfl

/-- C6: for every node of a Tree built by insert operations, `count(node)`
equals the length of `allLeafKeys(node)`; in particular `count` is 1 on a
leaf (non-directory) node. -/
theorem C6_count_eq_leaf_key_count (l : List (String × Int)) (m : Node)
    (hm : Subnode m (applyInserts l)) :
    m.count = m.all_keys.length ∧ (m.dir = false → m.count = 1) := by
  have hk := keysOk_subnode hm (applyInserts_keysOk l)
  refine ⟨count_eq_allKeys_len m hk, ?_⟩
  intro hd
  cases m with
  | mk nm d s k ch =>
      have : d = false := hd
      subst this
      rfl

/-- Witness for C6 on the spec's example tree. -/
theorem C6_count_eq_leaf_key_count_witness :
    (applyInserts [("a/b/c.txt", 300), ("a/d.txt", 100)]).count =
        (applyInserts [("a/b/c.txt", 300), ("a/d.txt", 100)]).all_keys.length ∧
      ((applyInserts [("a/b/c.txt", 300), ("a/d.txt", 100)]).dir = false →
        (applyInserts [("a/b/c.txt", 300), ("a/d.txt", 100)]).count = 1) :=
  C6_count_eq_leaf_key_count [("a/b/c.txt", 300), ("a/d.txt", 100)] _ (Subnode.refl _)

/-! ### C9 / C10: no-op inserts and removes -/

/-- C9: inserting a key with no non-empty slash-separated segments leaves
the tree unchanged: the walk never leaves the root and the bubble-up is
vacuous. -/
theorem C9_empty_key_insert_noop (t : Node) (key : String) (size : Int)
    (h : splitKey key = []) : Tree.insert t key size = t := by
  rw [Tree.insert, h, insertGo_nil]

/-- Witness for C9: the keys `""`, `"/"` and `"//"` all split to no
segments, and inserting them changes nothing. -/
theorem C9_empty_key_insert_noop_witness :
    Tree.insert (applyInserts [("a/b", 5)]) "//" 7 = applyInserts [("a/b", 5)] ∧
      Tree.insert Tree.empty "/" 3 = Tree.empty ∧
      Tree.insert Tree.empty "" 1 = Tree.empty :=
  ⟨C9_empty_key_insert_noop _ "//" 7 (by decide),
   C9_empty_key_insert_noop _ "/" 3 (by decide),
   C9_empty_key_insert_noop _ "" 1 (by decide)⟩

theorem removeGo_nil_path (t : Node) : removeGo t [] = none := by
  cases t with
  | mk nm d s k ch => rfl

theorem removeGo_not_found : ∀ (path : List String) (t : Node),
    findPath t path = none → removeGo t path = none := by
  intro path
  induction path with
  | nil => intro t h; simp [findPath] at h
  | cons p rest ih =>
      intro t h
      cases t with
      | mk nm d s k ch =>
          simp only [findPath, Node.ch] at h
          cases hl : ch.lookup p with
          | none =>
              cases rest with
              | nil => simp [removeGo, Node.ch] at hl ⊢; rw [hl]
              | cons q rest' => simp [removeGo, Node.ch] at hl ⊢; rw [hl]
          | some c =>
              rw [hl] at h
              have h' : findPath c rest = none := h
              cases rest with
              | nil => simp [findPath] at h'
              | cons q rest' =>
                  have hr := ih c h'
                  simp only [removeGo, Node.ch]
                  rw [hl]
                  simp [hr]

/-- C10: `Tree.remove` on the root (no parent) or on a node that is not
present under its parent is a no-op; the method is total and raises
nothing. -/
theorem C10_remove_absent_noop (t : Node) (path : List String)
    (h : path = [] ∨ findPath t path = none) : Tree.remove t path = t := by
  rcases h with h | h
  · subst h
    rw [Tree.remove, removeGo_nil_path]
    rfl
  · rw [Tree.remove, removeGo_not_found path t h]
    rfl

/-- Witness for C10: removing the root, and removing a path absent from the
parent's children map, both leave a concrete two-level tree unchanged. -/
theorem C10_remove_absent_noop_witness :
    Tree.remove (applyInserts [("a/b", 5)]) [] = applyInserts [("a/b", 5)] ∧
      Tree.remove (applyInserts [("a/b", 5)]) ["a", "c"] = applyInserts [("a/b", 5)] :=
  ⟨C10_remove_absent_noop _ [] (Or.inl rfl),
   C10_remove_absent_noop _ ["a", "c"] (Or.inr rfl)⟩

/-! ### C5: batching of `allLeafKeys` into delete calls of at most 1000 keys -/

theorem deleteBatchesGo_nil (f : Nat) : deleteBatchesGo f [] = [] := by
  cases f with
  | zero => rfl
  | succ f' => rfl

theorem deleteBatchesGo_fuel : ∀ (f1 : Nat) (f2 : Nat) (l : List String),
    l.length ≤ f1 → l.length ≤ f2 → deleteBatchesGo f1 l = deleteBatchesGo f2 l := by
  intro f1
  induction f1 with
  | zero =>
      intro f2 l h1 _
      have : l = [] := List.eq_nil_of_length_eq_zero (Nat.le_zero.mp h1)
      subst this
      rw [deleteBatchesGo_nil, deleteBatchesGo_nil]
  | succ f ih =>
      intro f2 l h1 h2
      cases l with
      | nil => rw [deleteBatchesGo_nil, deleteBatchesGo_nil]
      | cons k ks =>
          cases f2 with
          | zero => simp at h2
          | succ f' =>
              simp only [deleteBatchesGo]
              congr 1
              apply ih
              · simp only [List.length_drop, List.length_cons] at *
                omega
              · simp only [List.length_drop, List.length_cons] at *
                omega

theorem deleteBatches_cons (l : List String) (h : l ≠ []) :
    deleteBatches l = l.take 1000 :: deleteBatches (l.drop 1000) := by
  obtain ⟨k, ks, rfl⟩ := List.exists_cons_of_ne_nil h
  show deleteBatchesGo (k :: ks).length (k :: ks) = _
  rw [List.length_cons]
  simp only [deleteBatchesGo]
  congr 1
  apply deleteBatchesGo_fuel
  · simp only [List.length_drop, List.length_cons]
    omega
  · exact Nat.le_refl _

theorem deleteBatches_flatten (l : List String) : (deleteBatches l).flatten = l := by
  have H : ∀ (f : Nat) (l : List String), l.length ≤ f → (deleteBatches l).flatten = l := by
    intro f
    induction f with
    | zero =>
        intro l h
        have : l = [] := List.eq_nil_of_length_eq_zero (Nat.le_zero.mp h)
        subst this
        rfl
    | succ f ih =>
        intro l h
        by_cases hn : l = []
        · subst hn; rfl
        · rw [deleteBatches_cons l hn]
          have hlen : (l.drop 1000).length ≤ f := by
            have : l.length ≠ 0 := by simpa using hn
            simp only [List.length_drop]
            omega
          simp only [List.flatten_cons, ih _ hlen]
          exact List.take_append_drop 1000 l
  exact H l.length l (Nat.le_refl _)

theorem deleteBatches_bounded (l : List String) :
    ∀ b ∈ deleteBatches l, b.length ≤ 1000 := by
  have H : ∀ (f : Nat) (l : List String), l.length ≤ f →
      ∀ b ∈ deleteBatches l, b.length ≤ 1000 := by
    intro f
    induction f with
    | zero =>
        intro l h b hb
        have : l = [] := List.eq_nil_of_length_eq_zero (Nat.le_zero.mp h)
        subst this
        simp [deleteBatches, deleteBatchesGo] at hb
    | succ f ih =>
        intro l h b hb
        by_cases hn : l = []
        · subst hn; simp [deleteBatches, deleteBatchesGo] at hb
        · rw [deleteBatches_cons l hn] at hb
          rcases List.mem_cons.mp hb with h1 | h2
          · subst h1
            simp [List.length_take]
          · have hlen : (l.drop 1000).length ≤ f := by
              have : l.length ≠ 0 := by simpa using hn
              simp only [List.length_drop]
              omega
            exact ih _ hlen b h2
  exact H l.length l (Nat.le_refl _)

theorem length_ne_nil {l : List String} {m : Nat} (h : l.length = m) (hm : m ≠ 0) :
    l ≠ [] := by
  intro e
  subst e
  simp at h
  omega

theorem deleteBatches_2500 (l : List String) (h : l.length = 2500) :
    (deleteBatches l).map List.length = [1000, 1000, 500] := by
  have h1 : l ≠ [] := length_ne_nil h (by omega)
  rw [deleteBatches_cons l h1]
  have hd1 : (l.drop 1000).length = 1500 := by simp [List.length_drop, h]
  have h2 : l.drop 1000 ≠ [] := length_ne_nil hd1 (by omega)
  rw [deleteBatches_cons _ h2]
  have hd2 : ((l.drop 1000).drop 1000).length = 500 := by simp [List.length_drop, h]
  have h3 : (l.drop 1000).drop 1000 ≠ [] := length_ne_nil hd2 (by omega)
  rw [deleteBatches_cons _ h3]
  have hd3 : (((l.drop 1000).drop 1000).drop 1000).length = 0 := by
    simp [List.length_drop, h]
  have : ((l.drop 1000).drop 1000).drop 1000 = [] :=
    List.eq_nil_of_length_eq_zero hd3
  rw [this]
  have e1 : (l.take 1000).length = 1000 := by
    simp [List.length_take, h]
  have e2 : ((l.drop 1000).take 1000).length = 1000 := by
    rw [List.length_take, hd1]
    omega
  have e3 : ((((l.drop 1000).drop 1000)).take 1000).length = 500 := by
    rw [List.length_take, hd2]
    omega
  have e0 : deleteBatches [] = [] := rfl
  simp [e0, e1, e2, e3]
  omega

/-- C5: confirming a delete partitions `allLeafKeys(node)` into batches of
at most 1000 keys, issued sequentially in key-list order (their
concatenation is the key list); a node with exactly 2500 leaf keys yields
exactly the batches 1000, 1000, 500. -/
theorem C5_delete_batches (n : Node) :
    (∀ b ∈ deleteBatches n.all_keys, b.length ≤ 1000) ∧
      (deleteBatches n.all_keys).flatten = n.all_keys ∧
      (n.all_keys.length = 2500 →
        (deleteBatches n.all_keys).map List.length = [1000, 1000, 500]) :=
  ⟨deleteBatches_bounded _, deleteBatches_flatten _, deleteBatches_2500 _⟩

/-! ### A concrete flat directory with `n` leaves (for C5's witness and the
C2 failing input: a directory of exactly 2500 objects) -/

def flatKey (i : Nat) : String := "d/" ++ Nat.repr i

def flatLeaf (i : Nat) : Node := Node.mk (Nat.repr i) false 1 (flatKey i) .nil

def flatDir (n : Nat) : Node :=
  Node.mk "d" true n "" (NodeList.ofList ((List.range n).map flatLeaf))

def flatTree (n : Nat) : Node := Node.mk "/" true n "" (.cons (flatDir n) .nil)

theorem allKeysCat_ofList (l : List Node) :
    (NodeList.ofList l).allKeysCat = (l.map Node.all_keys).flatten := by
  induction l with
  | nil => rfl
  | cons c rest ih => simp [NodeList.ofList, NodeList.allKeysCat, ih]

theorem flatKey_ne_empty (i : Nat) : (flatKey i == "") = false := by
  apply beq_eq_false_iff_ne.mpr
  intro e
  have := congrArg String.length e
  simp [flatKey, String.length_append] at this
  exact absurd this.1 (by decide)

theorem flatLeaf_keys (i : Nat) : (flatLeaf i).all_keys = [flatKey i] := by
  simp [flatLeaf, Node.all_keys, flatKey_ne_empty]

theorem flatten_singletons (l : List Nat) (f : Nat → String) :
    (l.map (fun i => [f i])).flatten = l.map f := by
  induction l with
  | nil => rfl
  | cons x rest ih => simp [ih]

theorem flatDir_keys (n : Nat) : (flatDir n).all_keys = (List.range n).map flatKey := by
  show NodeList.allKeysCat _ = _
  rw [allKeysCat_ofList, List.map_map]
  have : (Node.all_keys ∘ flatLeaf) = fun i => [flatKey i] := by
    funext i
    simp [Function.comp, flatLeaf_keys]
  rw [this, flatten_singletons]

theorem flatDir_keys_len (n : Nat) : (flatDir n).all_keys.length = n := by
  simp [flatDir_keys]

theorem flatTree_keys (n : Nat) : (flatTree n).all_keys = (List.range n).map flatKey := by
  show NodeList.allKeysCat _ = _
  simp [NodeList.allKeysCat, flatDir_keys]

/-- Witness for C5 at a directory with exactly 2500 leaf objects. -/
theorem C5_delete_batches_witness :
    ((flatDir 2500).all_keys.take 1000).length ≤ 1000 ∧
      (deleteBatches (flatDir 2500).all_keys).map List.length = [1000, 1000, 500] := by
  have hlen : (flatDir 2500).all_keys.length = 2500 := flatDir_keys_len 2500
  constructor
  · apply (C5_delete_batches (flatDir 2500)).1
    rw [deleteBatches_cons _ (length_ne_nil hlen (by omega))]
    exact List.mem_cons_self _ _
  · exact (C5_delete_batches (flatDir 2500)).2.2 hlen

/-! ### C2: the source removes deleted keys from the Tree only after all
batches succeed (`self._ftree.remove(node)` sits after the whole loop), so
when a later batch fails nothing at all has been removed — the spec
mandates per-batch removal and calls the source behavior a defect. -/

/-- The abstract store for the failing input: a `delete_objects` call
succeeds exactly when its batch has 1000 keys, so for a 2500-key node the
batches of 1000 succeed and the final batch of 500 raises. -/
def okOnly1000 : List String → Bool := fun b => decide (b.length = 1000)

/-- The UI state browsing the root of a 2500-leaf tree with the deletion of
directory `d` pending confirmation. -/
def st2500 : UIState :=
  { tree := flatTree 2500, cwd := [], sortBy := "size", cursor := 0,
    confirm := some ["d"], quit := false }

theorem runBatches_okOnly1000_fails {bs : List (List String)}
    (h : bs.map List.length = [1000, 1000, 500]) :
    runBatches okOnly1000 bs = false := by
  cases bs with
  | nil => simp at h
  | cons b1 bs1 =>
      cases bs1 with
      | nil => simp at h
      | cons b2 bs2 =>
          cases bs2 with
          | nil => simp at h
          | cons b3 bs3 =>
              cases bs3 with
              | nil =>
                  simp only [List.map_cons, List.map_nil, List.cons.injEq] at h
                  simp [runBatches, okOnly1000, h.1, h.2.1, h.2.2.1]
              | cons b4 bs4 => simp at h

theorem findPath_flatTree (n : Nat) : findPath (flatTree n) ["d"] = some (flatDir n) := by
  simp [findPath, flatTree, Node.ch, NodeList.lookup, flatDir, Node.name]

/-- C2 (code bug): on the 2500-leaf directory, with the first two delete
calls succeeding and the third raising, the code leaves the Tree fully
unchanged — even the 2000 keys of the two already-succeeded batches are
still present — where the spec requires each successful batch's keys to be
removed as soon as that batch succeeds. -/
theorem C2_no_per_batch_removal :
    (uiActionConfirmYes okOnly1000 st2500).tree = flatTree 2500 ∧
      flatKey 0 ∈ (uiActionConfirmYes okOnly1000 st2500).tree.all_keys := by
  have hlen : (flatDir 2500).all_keys.length = 2500 := flatDir_keys_len 2500
  have hrun : runBatches okOnly1000 (deleteBatches (flatDir 2500).all_keys) = false :=
    runBatches_okOnly1000_fails (deleteBatches_2500 _ hlen)
  have hres : (uiActionConfirmYes okOnly1000 st2500).tree = flatTree 2500 := by
    simp only [uiActionConfirmYes, st2500, findPath_flatTree, hrun]
    simp
  refine ⟨hres, ?_⟩
  rw [hres, flatTree_keys]
  exact List.mem_map_of_mem flatKey (List.mem_range.mpr (by omega))

/-! ### C3: the 36-way fallback partitioning -/

theorem digitsLower_length : digitsLower.length = 36 := by decide

/-- A bucket whose root listing returns exactly one common prefix `a/`, which
itself fans out into two sub-prefixes: depth-2 discovery then yields two
partitions and the fallback does not trigger. -/
def cexListCP : String → List String :=
  fun p => if p = "" then ["a/"] else if p = "a/" then ["a/x/", "a/y/"] else []

/-- Counterexample to C3 as stated: the root listing returns exactly one
common prefix, yet the scanner produces 2 partitions, not 36. -/
theorem C3_counterexample :
    (cexListCP "").length = 1 ∧ (Scanner.scanPartitions cexListCP).length = 2 ∧
      ¬ (Scanner.scanPartitions cexListCP).length = 36 := by
  refine ⟨by decide, by decide, by decide⟩

/-- C3 (amended): when the root listing returns 0 common prefixes — or, more
generally, whenever depth-2 discovery yields at most one prefix — the
scanner falls back to exactly 36 partitions, one per character of
`0-9a-z` appended to the base prefix (the single discovered prefix, or
the empty prefix). -/
theorem C3_fallback_yields_36 (listCP : String → List String)
    (h : listCP "" = [] ∨ (Scanner.discover listCP 2 "").length ≤ 1) :
    Scanner.scanPartitions listCP =
        Scanner.splitPrefix ((Scanner.discover listCP 2 "").headD "") ∧
      (Scanner.scanPartitions listCP).length = 36 := by
  have hle : (Scanner.discover listCP 2 "").length ≤ 1 := by
    rcases h with h | h
    · simp [Scanner.discover, h]
    · exact h
  have hpart : Scanner.scanPartitions listCP =
      Scanner.splitPrefix ((Scanner.discover listCP 2 "").headD "") := by
    simp only [Scanner.scanPartitions]
    rw [if_pos hle]
  refine ⟨hpart, ?_⟩
  rw [hpart]
  simp [Scanner.splitPrefix, digitsLower_length]

/-- Witness for C3 on a flat bucket (no common prefixes at all). -/
theorem C3_fallback_yields_36_witness :
    ((fun _ : String => ([] : List String)) "" = [] ∨
        (Scanner.discover (fun _ : String => ([] : List String)) 2 "").length ≤ 1) ∧
      (Scanner.scanPartitions (fun _ : String => ([] : List String))).length = 36 :=
  ⟨Or.inl rfl, (C3_fallback_yields_36 (fun _ => []) (Or.inl rfl)).2⟩

/-! ### C8: keypresses during delete confirmation -/

/-- A state in which the deletion of node `a` awaits confirmation. -/
def stC8 : UIState :=
  { tree := applyInserts [("a/b", 5)], cwd := [], sortBy := "size", cursor := 0,
    confirm := some ["a"], quit := false }

/-- Counterexample to C8 as stated: while in `ConfirmingDelete`, the bound
key `q` performs its own action (quit) and leaves the confirmation
pending, and a key with no binding changes nothing at all — neither
transitions back to `Browsing`. -/
theorem C8_counterexample :
    (handleKey (fun _ => true) stC8 .q).quit = true ∧
      (handleKey (fun _ => true) stC8 .q).confirm = some ["a"] ∧
      handleKey (fun _ => true) stC8 .other = stC8 :=
  ⟨rfl, rfl, rfl⟩

/-- C8 (amended): while in `ConfirmingDelete`, every keypress bound to a
non-confirm, non-cancel action other than quit — delete, sort-by-size,
sort-by-name, go-up, and row selection — only cancels the confirmation,
transitioning back to `Browsing(currentDir)` with the rest of the state
(current directory, sort order, cursor, tree) untouched and without
performing the keypress's own action; quit still quits, and unbound keys
leave the pending confirmation in place. -/
theorem C8_bound_keys_cancel_confirm (ok : List String → Bool) (st : UIState)
    (p : List String) (hc : st.confirm = some p) (k : Key)
    (hk : k = .d ∨ k = .s ∨ k = .n ∨ k = .backspace ∨ k = .enter) :
    handleKey ok st k = { st with confirm := none } := by
  have hs : st.confirm.isSome = true := by rw [hc]; rfl
  rcases hk with rfl | rfl | rfl | rfl | rfl
  · simp [handleKey, uiActionDelete, hs]
  · simp [handleKey, uiActionSortSize, hs]
  · simp [handleKey, uiActionSortName, hs]
  · simp [handleKey, uiActionGoUp, hs]
  · simp [handleKey, uiRowSelected, hs]

/-- Witness for C8 on the concrete confirming state. -/
theorem C8_bound_keys_cancel_confirm_witness :
    stC8.confirm = some ["a"] ∧
      handleKey (fun _ => true) stC8 .s = { stC8 with confirm := none } :=
  ⟨rfl, C8_bound_keys_cancel_confirm (fun _ => true) stC8 ["a"] rfl .s
    (Or.inr (Or.inl rfl))⟩

/-! ### C4: `sorted(by)` ordering -/

theorem charListLe_total : ∀ (a b : List Char),
    (charListLe a b || charListLe b a) = true := by
  intro a
  induction a with
  | nil => intro b; simp [charListLe]
  | cons x xs ih =>
      intro b
      cases b with
      | nil => simp [charListLe]
      | cons y ys =>
          simp only [charListLe]
          by_cases hxy : x < y
          · simp [hxy]
          · by_cases hyx : y < x
            · simp [hxy, hyx]
            · simp [hxy, hyx, ih ys]

theorem charListLe_trans : ∀ (a b c : List Char),
    charListLe a b = true → charListLe b c = true → charListLe a c = true := by
  intro a
  induction a with
  | nil => intro b c _ _; rfl
  | cons x xs ih =>
      intro b c h1 h2
      cases b with
      | nil => simp [charListLe] at h1
      | cons y ys =>
          cases c with
          | nil => simp [charListLe] at h2
          | cons z zs =>
              simp only [charListLe] at h1 h2 ⊢
              by_cases hxy : x < y
              · by_cases hyz : y < z
                · rw [if_pos (lt_trans hxy hyz)]
                · by_cases hzy : z < y
                  · rw [if_neg hyz, if_pos hzy] at h2
                    exact absurd h2 (by simp)
                  · have hyz' : y = z := le_antisymm (not_lt.mp hzy) (not_lt.mp hyz)
                    subst hyz'
                    rw [if_pos hxy]
              · by_cases hyx : y < x
                · rw [if_neg hxy, if_pos hyx] at h1
                  exact absurd h1 (by simp)
                · have hxy' : x = y := le_antisymm (not_lt.mp hyx) (not_lt.mp hxy)
                  subst hxy'
                  rw [if_neg hxy, if_neg hyx] at h1
                  by_cases hxz : x < z
                  · rw [if_pos hxz]
                  · by_cases hzx : z < x
                    · rw [if_neg hxz, if_pos hzx] at h2
                      exact absurd h2 (by simp)
                    · rw [if_neg hxz, if_neg hzx] at h2 ⊢
                      exact ih ys zs h1 h2

theorem strLe_total (a b : String) : (strLe a b || strLe b a) = true :=
  charListLe_total a.data b.data

theorem strLe_trans {a b c : String} (h1 : strLe a b = true) (h2 : strLe b c = true) :
    strLe a c = true :=
  charListLe_trans a.data b.data c.data h1 h2

/-- The two children of the counterexample node: equal sizes, stored in the
order `b` before `a`. -/
def tieB : Node := Node.mk "b" false 5 "b" .nil

def tieA : Node := Node.mk "a" false 5 "a" .nil

def cexSortNode : Node := Node.mk "/" true 10 "" (.cons tieB (.cons tieA .nil))

theorem cexSortNode_sorted : cexSortNode.sorted "size" = [tieB, tieA] := by
  show List.mergeSort [tieB, tieA] (fun x y => decide (y.size ≤ x.size)) = [tieB, tieA]
  apply List.mergeSort_of_sorted
  refine List.pairwise_cons.mpr ⟨?_, List.pairwise_singleton _ _⟩
  intro b hb
  rcases List.mem_singleton.mp hb with rfl
  decide

/-- Counterexample to C4 as stated: with two equal-sized children inserted
as `b` then `a`, `sorted("size")` returns them in insertion order
`[b, a]`, not in the claimed name-ascending tie-break order `[a, b]`. -/
theorem C4_counterexample :
    ¬ (cexSortNode.sorted "size").Pairwise
        (fun x y => x.size > y.size ∨
          (x.size = y.size ∧ strLe (lowerStr x.name) (lowerStr y.name) = true)) := by
  rw [cexSortNode_sorted]
  intro h
  have hba := (List.pairwise_cons.mp h).1 tieA (List.mem_singleton.mpr rfl)
  rcases hba with hgt | ⟨_, hle⟩
  · exact absurd hgt (by decide)
  · exact absurd hle (by decide)

/-- C4 (amended): `sorted(by="size")` returns a permutation of the
immediate children that is ordered by size descending, with ties left in
insertion order (the sort is stable); `sorted(by="name")` returns a
permutation ordered by name ascending case-insensitively. -/
theorem C4_sorted_order (n : Node) :
    ((n.sorted "size").Perm n.ch.toList ∧
      (n.sorted "size").Pairwise (fun x y => y.size ≤ x.size) ∧
      (∀ a b : Node, [a, b].Sublist n.ch.toList → a.size = b.size →
        [a, b].Sublist (n.sorted "size"))) ∧
    ((n.sorted "name").Perm n.ch.toList ∧
      (n.sorted "name").Pairwise
        (fun x y => strLe (lowerStr x.name) (lowerStr y.name) = true)) := by
  have htranss : ∀ a b c : Node, decide (b.size ≤ a.size) = true →
      decide (c.size ≤ b.size) = true → decide (c.size ≤ a.size) = true := by
    intro a b c h1 h2
    exact decide_eq_true_eq.mpr (le_trans (of_decide_eq_true h2) (of_decide_eq_true h1))
  have htotals : ∀ a b : Node,
      (decide (b.size ≤ a.size) || decide (a.size ≤ b.size)) = true := by
    intro a b
    rcases le_total a.size b.size with h | h <;> simp [h]
  have htransn : ∀ a b c : Node, strLe (lowerStr a.name) (lowerStr b.name) = true →
      strLe (lowerStr b.name) (lowerStr c.name) = true →
      strLe (lowerStr a.name) (lowerStr c.name) = true :=
    fun _ _ _ h1 h2 => strLe_trans h1 h2
  have htotaln : ∀ a b : Node,
      (strLe (lowerStr a.name) (lowerStr b.name) ||
        strLe (lowerStr b.name) (lowerStr a.name)) = true :=
    fun a b => strLe_total _ _
  have hsz : n.sorted "size" =
      n.ch.toList.mergeSort (fun x y => decide (y.size ≤ x.size)) := by
    simp [Node.sorted]
  have hnm : n.sorted "name" =
      n.ch.toList.mergeSort (fun x y => strLe (lowerStr x.name) (lowerStr y.name)) := by
    simp [Node.sorted]
  refine ⟨⟨?_, ?_, ?_⟩, ?_, ?_⟩
  · rw [hsz]; exact List.mergeSort_perm _ _
  · rw [hsz]
    have := List.sorted_mergeSort htranss htotals n.ch.toList
    exact this.imp (fun h => of_decide_eq_true h)
  · intro a b hsub heq
    rw [hsz]
    exact List.pair_sublist_mergeSort htranss htotals
      (decide_eq_true_eq.mpr (le_of_eq heq.symm)) hsub
  · rw [hnm]; exact List.mergeSort_perm _ _
  · rw [hnm]
    exact List.sorted_mergeSort htransn htotaln n.ch.toList

/-- Witness for C4 on the tie node: the equal-sized pair stays in insertion
order in the output, which is a permutation of the children. -/
theorem C4_sorted_order_witness :
    [tieB, tieA].Sublist (cexSortNode.sorted "size") ∧
      (cexSortNode.sorted "size").Perm cexSortNode.ch.toList :=
  ⟨(C4_sorted_order cexSortNode).1.2.2 tieB tieA (List.Sublist.refl _) rfl,
   (C4_sorted_order cexSortNode).1.1⟩

/-! ### C1: the aggregation invariant across insert/remove sequences -/

theorem lookup_sizeOk {l : NodeList} {p : String} {c : Node}
    (hl : l.sizeOkAll = true) (h : l.lookup p = some c) : c.sizeOk = true := by
  induction l using NodeList.induct with
  | h0 => simp [NodeList.lookup] at h
  | h1 x rest ih =>
      simp only [NodeList.sizeOkAll, Bool.and_eq_true] at hl
      by_cases hx : (x.name == p) = true
      · simp [NodeList.lookup, hx] at h
        exact h ▸ hl.1
      · simp [NodeList.lookup, hx] at h
        exact ih hl.2 h

theorem sizeOkAll_replace {l : NodeList} {p : String} {c' : Node}
    (hl : l.sizeOkAll = true) (hc : c'.sizeOk = true) :
    (l.replace p c').sizeOkAll = true := by
  induction l using NodeList.induct with
  | h0 => simpa [NodeList.replace] using hl
  | h1 x rest ih =>
      simp only [NodeList.sizeOkAll, Bool.and_eq_true] at hl
      by_cases hx : (x.name == p) = true
      · simp [NodeList.replace, hx, NodeList.sizeOkAll, hc, hl.2]
      · simp [NodeList.replace, hx, NodeList.sizeOkAll, hl.1, ih hl.2]

theorem sizeOkAll_push {l : NodeList} {c' : Node}
    (hl : l.sizeOkAll = true) (hc : c'.sizeOk = true) :
    (l.push c').sizeOkAll = true := by
  induction l using NodeList.induct with
  | h0 => simp [NodeList.push, NodeList.sizeOkAll, hc]
  | h1 x rest ih =>
      simp only [NodeList.sizeOkAll, Bool.and_eq_true] at hl
      simp [NodeList.push, NodeList.sizeOkAll, hl.1, ih hl.2]

theorem sizeOkAll_eraseName {l : NodeList} {p : String}
    (hl : l.sizeOkAll = true) : (l.eraseName p).sizeOkAll = true := by
  induction l using NodeList.induct with
  | h0 => simpa [NodeList.eraseName] using hl
  | h1 x rest ih =>
      simp only [NodeList.sizeOkAll, Bool.and_eq_true] at hl
      by_cases hx : (x.name == p) = true
      · simpa [NodeList.eraseName, hx] using hl.2
      · simp [NodeList.eraseName, hx, NodeList.sizeOkAll, hl.1, ih hl.2]

/-- Whether the path addresses an existing node marked as a directory. -/
def dirHit (n : Node) (parts : List String) : Bool :=
  match findPath n parts with
  | some m => m.dir
  | none => false

theorem insertGo_sizeOk (key : String) (size : Int) :
    ∀ (parts : List String) (n : Node), n.sizeOk = true →
      dirHit n parts = false → (insertGo key size n parts).sizeOk = true := by
  intro parts
  induction parts with
  | nil => intro n h _; simpa [insertGo_nil] using h
  | cons p rest ih =>
      intro n h hdir
      cases n with
      | mk nm d s k ch =>
          simp only [Node.sizeOk, Bool.and_eq_true] at h
          cases rest with
          | nil =>
              simp only [insertGo]
              cases hl : ch.lookup p with
              | some c =>
                  have hcdir : c.dir = false := by
                    simp only [dirHit, findPath, Node.ch, hl] at hdir
                    exact hdir
                  have hc := lookup_sizeOk h.2 hl
                  cases c with
                  | mk cn cd cs ck cch =>
                      have hcd : cd = false := hcdir
                      subst hcd
                      simp only [Node.sizeOk, Bool.and_eq_true] at hc
                      have hc' : (Node.mk cn false size key cch).sizeOk = true := by
                        simp only [Node.sizeOk, Bool.and_eq_true]
                        exact ⟨by simp, hc.2⟩
                      simp only [Node.sizeOk, Bool.and_eq_true]
                      exact ⟨by simp, sizeOkAll_replace h.2 hc'⟩
              | none =>
                  have hc' : (Node.mk p false size key .nil).sizeOk = true := by
                    simp [Node.sizeOk, NodeList.sizeOkAll]
                  simp only [Node.sizeOk, Bool.and_eq_true]
                  exact ⟨by simp, sizeOkAll_push h.2 hc'⟩
          | cons q rest' =>
              simp only [insertGo]
              cases hl : ch.lookup p with
              | some c =>
                  have hdir' : dirHit c (q :: rest') = false := by
                    simp only [dirHit, findPath, Node.ch, hl] at hdir ⊢
                    exact hdir
                  have hc' := ih c (lookup_sizeOk h.2 hl) hdir'
                  simp only [Node.sizeOk, Bool.and_eq_true]
                  refine ⟨by simp, ?_⟩
                  simp only [hl, Option.isSome_some, if_pos]
                  exact sizeOkAll_replace h.2 hc'
              | none =>
                  have hfresh : (Node.mk p true 0 "" NodeList.nil).sizeOk = true := by
                    simp [Node.sizeOk, NodeList.sizeOkAll, NodeList.sumSizes]
                  have hdir' : dirHit (Node.mk p true 0 "" NodeList.nil) (q :: rest') = false := by
                    simp [dirHit, findPath, Node.ch, NodeList.lookup]
                  have hc' := ih _ hfresh hdir'
                  simp only [Node.sizeOk, Bool.and_eq_true]
                  refine ⟨by simp, ?_⟩
                  simp only [hl, Option.isSome_none, Bool.false_eq_true, if_neg]
                  exact sizeOkAll_push h.2 hc'

theorem removeGo_sizeOk : ∀ (path : List String) (n n' : Node),
    n.sizeOk = true → removeGo n path = some n' → n'.sizeOk = true := by
  intro path
  induction path with
  | nil => intro n n' _ h; rw [removeGo_nil_path] at h; exact absurd h (by simp)
  | cons p rest ih =>
      intro n n' h hr
      cases n with
      | mk nm d s k ch =>
          simp only [Node.sizeOk, Bool.and_eq_true] at h
          cases rest with
          | nil =>
              simp only [removeGo] at hr
              cases hl : ch.lookup p with
              | none => rw [hl] at hr; exact absurd hr (by simp)
              | some c =>
                  simp only [hl] at hr
                  have hn := Option.some.inj hr
                  subst hn
                  simp only [Node.sizeOk, Bool.and_eq_true]
                  refine ⟨?_, sizeOkAll_eraseName h.2⟩
                  cases d with
                  | true => simp
                  | false => simp
          | cons q rest' =>
              simp only [removeGo] at hr
              cases hl : ch.lookup p with
              | none => rw [hl] at hr; exact absurd hr (by simp)
              | some c =>
                  simp only [hl] at hr
                  cases hrg : removeGo c (q :: rest') with
                  | none => simp only [hrg] at hr; exact absurd hr (by simp)
                  | some c' =>
                      simp only [hrg] at hr
                      have hcc := ih c c' (lookup_sizeOk h.2 hl) hrg
                      have hn := Option.some.inj hr
                      subst hn
                      simp only [Node.sizeOk, Bool.and_eq_true]
                      refine ⟨?_, sizeOkAll_replace h.2 hcc⟩
                      cases d with
                      | true => simp
                      | false => simp

theorem tree_insert_sizeOk {t : Node} {key : String} (size : Int)
    (h : t.sizeOk = true) (hok : insOk t key = true) :
    (Tree.insert t key size).sizeOk = true := by
  by_cases he : splitKey key = []
  · rw [Tree.insert, he, insertGo_nil]
    exact h
  · have hdir : dirHit t (splitKey key) = false := by
      simp only [insOk, Bool.or_eq_true, decide_eq_true_eq] at hok
      rcases hok with h1 | h1
      · exact absurd h1 he
      · simp only [dirHit]
        cases hf : findPath t (splitKey key) with
        | none => rfl
        | some m => rw [hf] at h1; simpa using h1
    exact insertGo_sizeOk key size (splitKey key) t h hdir

theorem tree_remove_sizeOk {t : Node} (path : List String)
    (h : t.sizeOk = true) : (Tree.remove t path).sizeOk = true := by
  rw [Tree.remove]
  cases hr : removeGo t path with
  | none => exact h
  | some n' => exact removeGo_sizeOk path t n' h hr

theorem goodRun_sizeOk : ∀ (ops : List Op) (t : Node), t.sizeOk = true →
    goodRun t ops = true → (applyOps t ops).sizeOk = true := by
  intro ops
  induction ops with
  | nil => intro t h _; exact h
  | cons op rest ih =>
      intro t h hg
      simp only [goodRun, Bool.and_eq_true] at hg
      have hstep : (applyOp t op).sizeOk = true := by
        cases op with
        | ins k sz => exact tree_insert_sizeOk sz h hg.1
        | rem p => exact tree_remove_sizeOk p h
      exact ih (applyOp t op) hstep hg.2

/-- Counterexample to C1 as stated: insert `a/b` then insert `a`; the second
insert overwrites the size of the existing directory node `a` in place
(the `elif leaf` branch), leaving `a` a directory of size 7 whose only
child sums to 5. -/
theorem C1_counterexample :
    Node.sizeOk (applyOps Tree.empty [Op.ins "a/b" 5, Op.ins "a" 7]) = false ∧
      (findPath (applyOps Tree.empty [Op.ins "a/b" 5, Op.ins "a" 7]) ["a"]).map
          (fun m => (m.dir, m.size, m.ch.sumSizes)) = some (true, 7, 5) := by
  refine ⟨by decide, by decide⟩

/-- C1 (amended): after every sequence of inserts and removes in which no
insert addresses an already-existing directory node, every directory
node's size equals the sum of its immediate children's sizes, recursively
throughout the tree. -/
theorem C1_size_invariant (ops : List Op)
    (h : goodRun Tree.empty ops = true) :
    (applyOps Tree.empty ops).sizeOk = true :=
  goodRun_sizeOk ops Tree.empty rfl h

/-- Witness for C1: the spec's example inserts followed by a removal. -/
theorem C1_size_invariant_witness :
    goodRun Tree.empty
        [Op.ins "a/b/c.txt" 300, Op.ins "a/d.txt" 100, Op.rem ["a", "b"]] = true ∧
      (applyOps Tree.empty
        [Op.ins "a/b/c.txt" 300, Op.ins "a/d.txt" 100, Op.rem ["a", "b"]]).sizeOk = true :=
  ⟨by decide, C1_size_invariant _ (by decide)⟩

/-! ### C7: remove-then-reinsert round trip -/

theorem lookup_name : ∀ {l : NodeList} {p : String} {c : Node},
    l.lookup p = some c → c.name = p := by
  intro l
  induction l using NodeList.induct with
  | h0 => intro p c h; simp [NodeList.lookup] at h
  | h1 x rest ih =>
      intro p c h
      by_cases hx : (x.name == p) = true
      · simp only [NodeList.lookup, hx, if_pos] at h
        exact (Option.some.inj h) ▸ (beq_iff_eq.mp hx)
      · simp only [NodeList.lookup, hx] at h
        simp only [Bool.false_eq_true, if_neg] at h
        exact ih h

theorem toList_perm_erase : ∀ {l : NodeList} {p : String} {c : Node},
    l.lookup p = some c → l.toList.Perm (c :: (l.eraseName p).toList) := by
  intro l
  induction l using NodeList.induct with
  | h0 => intro p c h; simp [NodeList.lookup] at h
  | h1 x rest ih =>
      intro p c h
      by_cases hx : (x.name == p) = true
      · simp only [NodeList.lookup, hx, if_pos] at h
        have hxc : x = c := Option.some.inj h
        subst hxc
        simp only [NodeList.eraseName, hx, if_pos, NodeList.toList]
        exact List.Perm.refl _
      · simp only [NodeList.lookup, hx, Bool.false_eq_true, if_neg] at h
        have := ih h
        simp only [NodeList.eraseName, hx, Bool.false_eq_true, if_neg, NodeList.toList]
        exact (this.cons x).trans (List.Perm.swap c x _)

theorem lookup_not_mem_names : ∀ {l : NodeList} {p : String},
    p ∉ l.namesOf → l.lookup p = none := by
  intro l
  induction l using NodeList.induct with
  | h0 => intro p _; rfl
  | h1 x rest ih =>
      intro p hp
      simp only [NodeList.namesOf, NodeList.toList, List.map_cons, List.mem_cons] at hp
      push_neg at hp
      have hx : (x.name == p) = false := beq_eq_false_iff_ne.mpr (fun e => hp.1 e.symm)
      simp only [NodeList.lookup, hx, Bool.false_eq_true, if_neg]
      exact ih (by simpa [NodeList.namesOf] using hp.2)

theorem nodup_erase_lookup_none : ∀ {l : NodeList} {p : String} {c : Node},
    l.namesOf.Nodup → l.lookup p = some c → (l.eraseName p).lookup p = none := by
  intro l
  induction l using NodeList.induct with
  | h0 => intro p c _ h; simp [NodeList.lookup] at h
  | h1 x rest ih =>
      intro p c hn h
      simp only [NodeList.namesOf, NodeList.toList, List.map_cons, List.nodup_cons] at hn
      by_cases hx : (x.name == p) = true
      · simp only [NodeList.eraseName, hx, if_pos]
        apply lookup_not_mem_names
        rw [← beq_iff_eq.mp hx]
        exact hn.1
      · simp only [NodeList.lookup, hx, Bool.false_eq_true, if_neg] at h
        simp only [NodeList.eraseName, hx, Bool.false_eq_true, if_neg,
          NodeList.lookup]
        exact ih (by simpa [NodeList.namesOf] using hn.2) h

theorem replace_lookup_self : ∀ {l : NodeList} {p : String} {c c' : Node},
    l.lookup p = some c → c'.name = p → (l.replace p c').lookup p = some c' := by
  intro l
  induction l using NodeList.induct with
  | h0 => intro p c c' h _; simp [NodeList.lookup] at h
  | h1 x rest ih =>
      intro p c c' h hc'
      by_cases hx : (x.name == p) = true
      · simp only [NodeList.replace, hx, if_pos, NodeList.lookup,
          beq_iff_eq.mpr hc', if_pos]
      · simp only [NodeList.lookup, hx, Bool.false_eq_true, if_neg] at h
        simp only [NodeList.replace, hx, Bool.false_eq_true, if_neg, NodeList.lookup]
        exact ih h hc'

theorem replace_replace : ∀ {l : NodeList} {p : String} {a b : Node},
    a.name = p → (l.replace p a).replace p b = l.replace p b := by
  intro l
  induction l using NodeList.induct with
  | h0 => intro p a b _; rfl
  | h1 x rest ih =>
      intro p a b ha
      by_cases hx : (x.name == p) = true
      · simp only [NodeList.replace, hx, if_pos, beq_iff_eq.mpr ha]
      · simp [NodeList.replace, hx, ih ha]

theorem canonList_replace : ∀ {l : NodeList} {p : String} {c x : Node},
    l.lookup p = some c → x.canon = c.canon →
    (l.replace p x).canonList = l.canonList := by
  intro l
  induction l using NodeList.induct with
  | h0 => intro p c x h _; simp [NodeList.lookup] at h
  | h1 y rest ih =>
      intro p c x h hx
      by_cases hy : (y.name == p) = true
      · simp only [NodeList.lookup, hy, if_pos] at h
        simp only [NodeList.replace, hy, if_pos, NodeList.canonList]
        rw [hx, Option.some.inj h]
      · simp only [NodeList.lookup, hy, Bool.false_eq_true, if_neg] at h
        simp only [NodeList.replace, hy, Bool.false_eq_true, if_neg,
          NodeList.canonList, ih h hx]

theorem sumSizes_replace : ∀ {l : NodeList} {p : String} {c x : Node},
    l.lookup p = some c → x.size = c.size →
    (l.replace p x).sumSizes = l.sumSizes := by
  intro l
  induction l using NodeList.induct with
  | h0 => intro p c x h _; simp [NodeList.lookup] at h
  | h1 y rest ih =>
      intro p c x h hx
      by_cases hy : (y.name == p) = true
      · simp only [NodeList.lookup, hy, if_pos] at h
        simp only [NodeList.replace, hy, if_pos, NodeList.sumSizes]
        rw [hx, Option.some.inj h]
      · simp only [NodeList.lookup, hy, Bool.false_eq_true, if_neg] at h
        simp only [NodeList.replace, hy, Bool.false_eq_true, if_neg,
          NodeList.sumSizes, ih h hx]

theorem toList_push : ∀ (l : NodeList) (c : Node),
    (l.push c).toList = l.toList ++ [c] := by
  intro l
  induction l using NodeList.induct with
  | h0 => intro c; rfl
  | h1 x rest ih => intro c; simp [NodeList.push, NodeList.toList, ih]

theorem canonList_eq_map : ∀ (l : NodeList), l.canonList = l.toList.map Node.canon := by
  intro l
  induction l using NodeList.induct with
  | h0 => rfl
  | h1 x rest ih => simp [NodeList.canonList, NodeList.toList, ih]

theorem canon_name (n : Node) : n.canon.name = n.name := by
  cases n with
  | mk nm d s k ch => rfl

theorem canon_size (n : Node) : n.canon.size = n.size := by
  cases n with
  | mk nm d s k ch => rfl

theorem sumSizes_toList : ∀ (l : NodeList),
    l.sumSizes = (l.toList.map Node.size).sum := by
  intro l
  induction l using NodeList.induct with
  | h0 => rfl
  | h1 x rest ih => simp [NodeList.sumSizes, NodeList.toList, ih]

theorem charListLe_antisymm : ∀ {a b : List Char},
    charListLe a b = true → charListLe b a = true → a = b := by
  intro a
  induction a with
  | nil =>
      intro b h1 h2
      cases b with
      | nil => rfl
      | cons y ys => simp [charListLe] at h2
  | cons x xs ih =>
      intro b h1 h2
      cases b with
      | nil => simp [charListLe] at h1
      | cons y ys =>
          simp only [charListLe] at h1 h2
          by_cases hxy : x < y
          · rw [if_neg (lt_asymm hxy), if_pos hxy] at h2
            exact absurd h2 (by simp)
          · by_cases hyx : y < x
            · rw [if_neg hxy, if_pos hyx] at h1
              exact absurd h1 (by simp)
            · have hxy' : x = y := le_antisymm (not_lt.mp hyx) (not_lt.mp hxy)
              subst hxy'
              rw [if_neg hxy, if_neg hxy] at h1
              rw [if_neg hxy, if_neg hxy] at h2
              rw [ih h1 h2]

theorem strLe_antisymm {a b : String} (h1 : strLe a b = true)
    (h2 : strLe b a = true) : a = b :=
  String.ext (charListLe_antisymm h1 h2)

theorem mergeSort_canon_eq {l1 l2 : List Node} (hp : l1.Perm l2)
    (hn : (l1.map Node.name).Nodup) :
    l1.mergeSort (fun a b => strLe a.name b.name) =
      l2.mergeSort (fun a b => strLe a.name b.name) := by
  have htrans : ∀ a b c : Node, strLe a.name b.name = true →
      strLe b.name c.name = true → strLe a.name c.name = true :=
    fun _ _ _ h1 h2 => strLe_trans h1 h2
  have htotal : ∀ a b : Node,
      (strLe a.name b.name || strLe b.name a.name) = true :=
    fun a b => strLe_total _ _
  have w : ∀ a b : Node,
      a ∈ l1.mergeSort (fun a b => strLe a.name b.name) →
      b ∈ l2.mergeSort (fun a b => strLe a.name b.name) →
      strLe a.name b.name = true → strLe b.name a.name = true → a = b := by
    intro a b ha hb hab hba
    have ha' : a ∈ l1 := List.mem_mergeSort.mp ha
    have hb' : b ∈ l1 := hp.symm.subset (List.mem_mergeSort.mp hb)
    exact List.inj_on_of_nodup_map hn ha' hb' (strLe_antisymm hab hba)
  exact List.Perm.eq_of_sorted w
    (List.sorted_mergeSort htrans htotal l1)
    (List.sorted_mergeSort htrans htotal l2)
    (((List.mergeSort_perm l1 _).trans hp).trans (List.mergeSort_perm l2 _).symm)

theorem removeGo_name : ∀ {path : List String} {n n' : Node},
    removeGo n path = some n' → n'.name = n.name := by
  intro path
  induction path with
  | nil => intro n n' h; rw [removeGo_nil_path] at h; exact absurd h (by simp)
  | cons p rest ih =>
      intro n n' h
      cases n with
      | mk nm d s k ch =>
          cases rest with
          | nil =>
              simp only [removeGo] at h
              cases hl : ch.lookup p with
              | none => rw [hl] at h; exact absurd h (by simp)
              | some c =>
                  simp only [hl] at h
                  rw [← Option.some.inj h]
                  rfl
          | cons q rest' =>
              simp only [removeGo] at h
              cases hl : ch.lookup p with
              | none => rw [hl] at h; exact absurd h (by simp)
              | some c =>
                  simp only [hl] at h
                  cases hrg : removeGo c (q :: rest') with
                  | none => simp only [hrg] at h; exact absurd h (by simp)
                  | some c' =>
                      simp only [hrg] at h
                      rw [← Option.some.inj h]
                      rfl

/-- The hypotheses of the round trip along the access path: each node on
the path (the leaf excluded) has `size` equal to the sum of its children's
sizes, has children with pairwise-distinct names, and actually has the
next path segment among its children. -/
def pathOk : Node → List String → Bool
  | _, [] => true
  | n, p :: rest =>
      (n.size == n.ch.sumSizes) && decide n.ch.namesOf.Nodup &&
        (match n.ch.lookup p with
         | some c => pathOk c rest
         | none => false)

theorem roundtrip_go : ∀ (path : List String) (n ℓ : Node),
    pathOk n path = true → findPath n path = some ℓ → ℓ.dir = false →
    ℓ.ch = .nil → path ≠ [] →
    ∃ n', removeGo n path = some n' ∧
      (insertGo ℓ.key ℓ.size n' path).canon = n.canon := by
  intro path
  induction path with
  | nil => intro n ℓ _ _ _ _ hne; exact absurd rfl hne
  | cons p rest ih =>
      intro n ℓ hpok hfind hdir hch _
      cases n with
      | mk nm d s k ch =>
          simp only [pathOk, Node.size, Node.ch, Bool.and_eq_true, beq_iff_eq,
            decide_eq_true_eq] at hpok
          obtain ⟨⟨hsize, hnodup⟩, hrest⟩ := hpok
          simp only [findPath, Node.ch] at hfind
          cases hl : ch.lookup p with
          | none =>
              rw [hl] at hrest hfind
              exact absurd hrest (by simp)
          | some c =>
              rw [hl] at hrest hfind
              cases rest with
              | nil =>
                  have hcl : c = ℓ := Option.some.inj hfind
                  subst hcl
                  refine ⟨Node.mk nm d (if d = true then (ch.eraseName p).sumSizes else s) k
                    (ch.eraseName p), ?_, ?_⟩
                  · simp only [removeGo, hl]
                  · have hle : (ch.eraseName p).lookup p = none :=
                      nodup_erase_lookup_none hnodup hl
                    simp only [insertGo, Node.ch, hle]
                    have hleaf : Node.mk p false c.size c.key NodeList.nil = c := by
                      cases c with
                      | mk cn cd cs ck cch =>
                          have h1 : cd = false := hdir
                          have h2 : cch = NodeList.nil := hch
                          have h3 : cn = p := lookup_name hl
                          rw [h1, h2, h3]
                          rfl
                    rw [hleaf]

                    have hperm : ((ch.eraseName p).push c).toList.Perm ch.toList := by
                      rw [toList_push]
                      exact (List.perm_append_singleton c _).trans
                        (toList_perm_erase hl).symm
                    have h1 : ((ch.eraseName p).push c).sumSizes = s :=
                      calc ((ch.eraseName p).push c).sumSizes
                          = (((ch.eraseName p).push c).toList.map Node.size).sum :=
                            sumSizes_toList _
                        _ = (ch.toList.map Node.size).sum := (hperm.map Node.size).sum_eq
                        _ = ch.sumSizes := (sumSizes_toList ch).symm
                        _ = s := hsize.symm
                    have hpermc : ((ch.eraseName p).push c).canonList.Perm ch.canonList := by
                      rw [canonList_eq_map, canonList_eq_map]
                      exact hperm.map _
                    have hnodupc : (((ch.eraseName p).push c).canonList.map Node.name).Nodup := by
                      rw [canonList_eq_map, List.map_map]
                      have he : (Node.name ∘ Node.canon) = Node.name := by
                        funext z
                        exact canon_name z
                      rw [he]
                      have := (hperm.map Node.name).nodup_iff.mpr
                      exact this hnodup
                    have h2 : ((ch.eraseName p).push c).canonList.mergeSort
                          (fun a b => strLe a.name b.name) =
                        ch.canonList.mergeSort (fun a b => strLe a.name b.name) :=
                      mergeSort_canon_eq hpermc hnodupc
                    simp only [Node.canon]
                    rw [h1, h2]
              | cons q rest' =>
                  obtain ⟨c', hrem, hins⟩ :=
                    ih c ℓ hrest hfind hdir hch (by simp)
                  have hcname : c'.name = p := (removeGo_name hrem).trans (lookup_name hl)
                  refine ⟨Node.mk nm d
                    (if d = true then (ch.replace p c').sumSizes else s) k
                    (ch.replace p c'), ?_, ?_⟩
                  · simp only [removeGo, hl, hrem]
                  · have hlook : (ch.replace p c').lookup p = some c' :=
                      replace_lookup_self hl hcname
                    simp only [insertGo, Node.ch, hlook, Option.isSome_some, if_pos]
                    rw [replace_replace hcname]
                    have hxc : (insertGo ℓ.key ℓ.size c' (q :: rest')).canon = c.canon := hins
                    have hxsize : (insertGo ℓ.key ℓ.size c' (q :: rest')).size = c.size := by
                      rw [← canon_size, hxc, canon_size]
                    have h2 : (ch.replace p (insertGo ℓ.key ℓ.size c' (q :: rest'))).canonList =
                        ch.canonList := canonList_replace hl hxc
                    have h1 : (ch.replace p (insertGo ℓ.key ℓ.size c' (q :: rest'))).sumSizes = s :=
                      (sumSizes_replace hl hxsize).trans hsize.symm
                    simp only [Node.canon]
                    rw [h1, h2]

/-- Counterexample to C7 as stated: build the tree by `insert("a", 1)` then
`insert("a/b", 2)`.  Node `a` is a leaf (`dir = False`, key `"a"`) that
nevertheless carries child `b`; removing it detaches the whole subtree,
and re-inserting key `"a"` with size 1 recreates a childless leaf: the
root size drops from 2 to 1 and key `a/b` is gone. -/
theorem C7_counterexample :
    (findPath (applyInserts [("a", 1), ("a/b", 2)]) ["a"]).map
        (fun m => (m.dir, m.key, m.size)) = some (false, "a", 2) ∧
      (findPath (applyInserts [("a", 1), ("a/b", 2)]) ["a", "b"]).isSome = true ∧
      (findPath
          (Tree.insert (Tree.remove (applyInserts [("a", 1), ("a/b", 2)]) ["a"]) "a" 2)
          ["a", "b"]).isSome = false := by
  refine ⟨by decide, by decide, by decide⟩

/-- C7 (amended): in any tree in which, along the leaf's access path, every
node's size equals the sum of its children's sizes and children names are
pairwise distinct, removing a childless leaf whose key splits exactly to
its path and re-inserting the same key with the same size yields a tree
indistinguishable from the original up to child ordering (equal canonical
forms: same nodes, names, sizes, keys and parent/child structure). -/
theorem C7_remove_insert_roundtrip (t : Node) (path : List String) (l : Node)
    (hpath : pathOk t path = true)
    (hfind : findPath t path = some l)
    (hdir : l.dir = false) (hch : l.ch = .nil)
    (hkey : splitKey l.key = path) :
    (Tree.insert (Tree.remove t path) l.key l.size).canon = t.canon := by
  cases path with
  | nil =>
      have htl : t = l := Option.some.inj hfind
      subst htl
      rw [Tree.remove, removeGo_nil_path, Option.getD_none, Tree.insert, hkey,
        insertGo_nil]
  | cons p rest =>
      obtain ⟨n', hrem, hins⟩ :=
        roundtrip_go (p :: rest) t l hpath hfind hdir hch (by simp)
      rw [Tree.remove, hrem, Option.getD_some, Tree.insert, hkey]
      exact hins

/-- Witness for C7: remove the leaf `a/d.txt` from the spec's example tree
and re-insert it. -/
theorem C7_remove_insert_roundtrip_witness :
    (Tree.insert
        (Tree.remove (applyInserts [("a/b/c.txt", 300), ("a/d.txt", 100)]) ["a", "d.txt"])
        "a/d.txt" 100).canon =
      (applyInserts [("a/b/c.txt", 300), ("a/d.txt", 100)]).canon :=
  C7_remove_insert_roundtrip _ ["a", "d.txt"]
    (Node.mk "d.txt" false 100 "a/d.txt" .nil) (by decide) rfl rfl rfl (by decide)
